import Mathlib

/-!
Shallow embedding of the RAG retrieval core of the VisaGo ai-service
(`apps/ai-service/services/{chunker,embeddings,cache_fallback,rag}.py`).

Texts are modelled as Lean `String`s over their ASCII fragment: Python's
`str.lower`, `str.strip` and `str.split` are Unicode-aware, but every
behaviour the claims exercise lives in the ASCII fragment, where the
functions below agree with CPython exactly.  Python floats are modelled by
exact rationals / reals; every float expression appearing in the source
(`n * 1.3`, `chunk_size * 0.2`, `(b1 + b2) / 255.0`, vector maths) is
commented with the argument that exact and double-precision evaluation
agree on all inputs of the magnitudes the program can produce.
-/

namespace VisaGo

/-- ASCII whitespace recognised by Python's `str.split()` / `str.strip()`
(space 32, tab 9, newline 10, carriage return 13, vertical tab 11, form
feed 12). -/
def pyIsSpace (c : Char) : Bool :=
  c.toNat = 32 || c.toNat = 9 || c.toNat = 10 || c.toNat = 13 ||
  c.toNat = 11 || c.toNat = 12

/-- Python `text.lower()` on ASCII text (`Char.toLower` is precisely the
ASCII case map: A-Z shifted by 32, all else fixed). -/
def asciiLower (s : String) : String := String.mk (s.data.map Char.toLower)

/-- Drop leading whitespace characters. -/
def stripLeft (l : List Char) : List Char := l.dropWhile pyIsSpace

/-- Drop trailing whitespace characters. -/
def stripRight (l : List Char) : List Char := (l.reverse.dropWhile pyIsSpace).reverse

/-- Python `text.strip()` on ASCII text. -/
def pyStrip (s : String) : String := String.mk (stripRight (stripLeft s.data))

/-- Helper for `pyWords`: split a character list on whitespace runs,
accumulating the current (reversed) word in `acc`. -/
def wordsAux (acc : List Char) : List Char → List (List Char)
  | [] => if acc.isEmpty then [] else [acc.reverse]
  | c :: cs =>
    if pyIsSpace c then
      if acc.isEmpty then wordsAux [] cs else acc.reverse :: wordsAux [] cs
    else wordsAux (c :: acc) cs

/-- Python `text.split()` (no argument): split on whitespace runs,
discarding empty pieces. -/
def pyWords (s : String) : List String := (wordsAux [] s.data).map String.mk

/-- `ChunkingStrategy.estimate_tokens`: Python `int(len(text.split()) * 1.3)`.
`int()` truncates toward zero; for every word count `n < 2 ^ 49` the
double-precision product `n * 1.3` lies in `[13n/10, 13n/10 + 1/10)`, so its
truncation equals `⌊13 n / 10⌋`, which is Nat division here. -/
def estimateTokens (s : String) : ℕ := 13 * (pyWords s).length / 10

/-- Python 3 `round(m / 10)`: round half to even (banker's rounding), in
exact integer arithmetic.  `pyRoundTenths (13 * n)` equals Python's
`round(n * 1.3)` for every `n < 2 ^ 49` (the double product `n * 1.3`
rounds to a value whose distance from `13n/10` is far below the gap to the
next rounding boundary, and the `.5` ties at `n ≡ 5 [MOD 10]` are hit
exactly).  Used only to state the spec's `round(word_count(text) * 1.3)`
side of claim C6. -/
def pyRoundTenths (m : ℕ) : ℕ :=
  let q := m / 10
  let r := m % 10
  if r < 5 then q else if 5 < r then q + 1 else if q % 2 = 0 then q else q + 1

/-- The token estimator that the spec claims the code uses:
`round(word_count(text) * 1.3)` with Python rounding. -/
def specEstimateTokens (s : String) : ℕ := pyRoundTenths (13 * (pyWords s).length)

example : pyWords "a b  c" = ["a", "b", "c"] := by decide
example : estimateTokens "a b c" = 3 := by decide
example : pyStrip "  ab c  " = "ab c" := by decide
example : asciiLower "Ab C" = "ab c" := by decide
example : pyRoundTenths 39 = 4 := by decide
example : pyRoundTenths 65 = 6 := by decide

/-! ## Metadata model

Python metadata dictionaries carry string and integer values (document
fields, plus the `chunk_index` / `tokens` integers the chunker stamps).
They are modelled as association lists with first-match lookup. -/

inductive MVal where
  | s (v : String)
  | i (v : ℤ)
deriving DecidableEq

abbrev Metadata := List (String × MVal)

/-- Python `dict.get(k)` (`None` when absent). -/
def mget (md : Metadata) (k : String) : Option MVal :=
  (md.find? (fun p => p.1 = k)).map (fun p => p.2)

/-- Python `dict.get(k, dflt)`. -/
def mgetD (md : Metadata) (k : String) (dflt : MVal) : MVal :=
  (mget md k).getD dflt

/-- Python `{**md, k: v}`: override `k` in place, or append it. -/
def mset (md : Metadata) (k : String) (v : MVal) : Metadata :=
  if md.any (fun p => p.1 = k) then
    md.map (fun p => if p.1 = k then (k, v) else p)
  else md ++ [(k, v)]

/-- Python f-string rendering of a metadata value. -/
def mvalStr : MVal → String
  | .s v => v
  | .i v => toString v

/-! ## Chunker (`services/chunker.py`, class `ChunkingStrategy`) -/

/-- A chunk dictionary: `{"id": ..., "text": ..., "metadata": ...}`. -/
structure Chunk where
  id : String
  text : String
  metadata : Metadata
deriving DecidableEq

/-- Chunk id `f"{metadata.get('id', 'doc')}_chunk_{chunk_id}"`. -/
def chunkIdStr (md : Metadata) (n : ℕ) : String :=
  mvalStr (mgetD md "id" (.s "doc")) ++ "_chunk_" ++ toString n

/-- Build the chunk dictionary appended by every strategy:
`{**metadata, "chunk_index": n, "tokens": tokens}`. -/
def mkChunk (md : Metadata) (n : ℕ) (text : String) (tokens : ℕ) : Chunk :=
  { id := chunkIdStr md n
    text := text
    metadata := mset (mset md "chunk_index" (.i n)) "tokens" (.i tokens) }

/-- Recorded token stamp of a chunk. -/
def chunkTokens (ch : Chunk) : Option MVal := mget ch.metadata "tokens"

/-- Is `c` an ASCII digit (regex `[0-9]`)? -/
def isDigitChar (c : Char) : Bool := '0' ≤ c && c ≤ '9'

/-- Length of a match of the paragraph separator regex
`\n\n+|\n[0-9]+\.\s+` anchored at the head of `l` (`none` if no match).
The first alternative is tried first; `+` is greedy, and no backtracking
can produce a different overall match for this pattern. -/
def paraSepLen (l : List Char) : Option ℕ :=
  match l with
  | '\n' :: '\n' :: rest => some (2 + (rest.takeWhile (fun c => c = '\n')).length)
  | '\n' :: c :: rest =>
    if isDigitChar c then
      let ds := ((c :: rest).takeWhile isDigitChar).length
      match (c :: rest).drop ds with
      | '.' :: rest2 =>
        let ws := (rest2.takeWhile pyIsSpace).length
        if ws = 0 then none else some (1 + ds + 1 + ws)
      | _ => none
    else none
  | _ => none

/-- Leftmost match of the paragraph separator: `(offset, length)`. -/
def findParaSep : List Char → Option (ℕ × ℕ)
  | [] => none
  | c :: rest =>
    match paraSepLen (c :: rest) with
    | some n => some (0, n)
    | none => (findParaSep rest).map (fun p => (p.1 + 1, p.2))

/-- Fuelled scanner for `re.split(r'\n\n+|\n[0-9]+\.\s+', text)`.  Every
separator match consumes at least one character, so fuel `l.length + 1`
(as supplied by `paraSplit`) never runs out and the `0` clause is dead. -/
def paraSplitAux : ℕ → List Char → List (List Char)
  | 0, l => [l]
  | fuel + 1, l =>
    match findParaSep l with
    | none => [l]
    | some (p, n) => l.take p :: paraSplitAux fuel (l.drop (p + n))

/-- `re.split(r'\n\n+|\n[0-9]+\.\s+', text)` on the character list. -/
def paraSplit (l : List Char) : List (List Char) := paraSplitAux (l.length + 1) l

/-- The paragraph pieces the strategy iterates over:
`[p.strip() for p in re.split(...) if p.strip()]`. -/
def paraPieces (text : String) : List String :=
  ((paraSplit text.data).map (fun piece => pyStrip (String.mk piece))).filter
    (fun p => p ≠ "")

example : paraPieces "a b\n\n c d\n2. e f" = ["a b", "c d", "e f"] := by decide

/-- Python slice `s[-k:]` (for `k` from a non-negative `int`): the whole
string when `k = 0` (since `s[-0:] = s[0:]`), otherwise the trailing
`min k (len s)` characters. -/
def pySliceLast (s : String) (k : ℕ) : String :=
  if k = 0 then s else String.mk (s.data.drop (s.data.length - k))

/-- Python `int(chunk_size * 0.2)` (the paragraph-overlap character count):
equals `cs / 5` for every `cs < 2 ^ 51` (the double product `cs * 0.2`
differs from `cs/5` by under `2⁻⁵⁰ · cs`, which never carries the value
across an integer boundary in the truncating direction). -/
def overlapChars (cs : ℕ) : ℕ := cs / 5

/-- Loop state shared by the paragraph and sentence accumulation loops:
emitted chunks, the running buffer, its token estimate, and the chunk id
counter. -/
structure BufState where
  chunks : List Chunk
  cur : String
  curTokens : ℕ
  cid : ℕ
deriving DecidableEq

/-- One iteration of the `chunk_by_paragraphs` loop body. -/
def paraStep (cs : ℕ) (md : Metadata) (st : BufState) (para : String) : BufState :=
  let pt := estimateTokens para
  let st' :=
    if cs < st.curTokens + pt ∧ st.cur ≠ "" then
      let n := st.cid + 1
      let seed := pySliceLast st.cur (overlapChars cs)
      { chunks := st.chunks ++ [mkChunk md n (pyStrip st.cur) st.curTokens]
        cur := seed
        curTokens := estimateTokens seed
        cid := n }
    else st
  let cur' := if st'.cur = "" then para else st'.cur ++ "\n" ++ para
  { st' with cur := cur', curTokens := estimateTokens cur' }

/-- Shared tail of both accumulation loops: emit the final buffer when its
stripped text is non-empty. -/
def finishChunks (md : Metadata) (st : BufState) : List Chunk :=
  if pyStrip st.cur ≠ "" then
    st.chunks ++ [mkChunk md (st.cid + 1) (pyStrip st.cur) st.curTokens]
  else st.chunks

/-- `ChunkingStrategy.chunk_by_paragraphs` (the `overlap` field is unused
by this strategy in the source). -/
def chunkByParagraphs (cs : ℕ) (text : String) (md : Metadata) : List Chunk :=
  finishChunks md ((paraPieces text).foldl (paraStep cs md) ⟨[], "", 0, 0⟩)

/-- Leftmost match of the sentence separator regex `(?<=[.!?])\s+`,
scanning with the character preceding the current position (`prev`; the
lookbehind fails at the start of the string, and after a split the
preceding character is always part of the consumed whitespace run). -/
def findSentSep (prev : Char) : List Char → Option (ℕ × ℕ)
  | [] => none
  | c :: rest =>
    if (prev = '.' || prev = '!' || prev = '?') && pyIsSpace c then
      some (0, 1 + (rest.takeWhile pyIsSpace).length)
    else (findSentSep c rest).map (fun p => (p.1 + 1, p.2))

/-- Fuelled scanner for `re.split(r'(?<=[.!?])\s+', text)`; as in
`paraSplitAux` the fuel supplied by `sentSplit` never runs out. -/
def sentSplitAux : ℕ → Char → List Char → List (List Char)
  | 0, _, l => [l]
  | fuel + 1, prev, l =>
    match findSentSep prev l with
    | none => [l]
    | some (p, n) => l.take p :: sentSplitAux fuel ' ' (l.drop (p + n))

/-- `re.split(r'(?<=[.!?])\s+', text)` on the character list (`Char.ofNat 0`
stands for "no preceding character": it is not in `[.!?]`). -/
def sentSplit (l : List Char) : List (List Char) :=
  sentSplitAux (l.length + 1) (Char.ofNat 0) l

/-- The sentence pieces: `[s.strip() for s in re.split(...) if s.strip()]`. -/
def sentPieces (text : String) : List String :=
  ((sentSplit text.data).map (fun piece => pyStrip (String.mk piece))).filter
    (fun p => p ≠ "")

example : sentPieces "A b. C d! E" = ["A b.", "C d!", "E"] := by decide

/-- Python `list.index`: position of the first occurrence. -/
def idxOf (x : String) : List String → ℕ
  | [] => 0
  | y :: ys => if y = x then 0 else idxOf x ys + 1

/-- The greedy overlap selection of `chunk_by_sentences`: walk the prior
sentences most-recent-first, keep each whose estimate still fits in the
`overlap` budget, stop at the first that does not.  The input is the
reversed prior-sentence list; the result list is in chronological order
(Python builds it with `insert(0, ...)`) together with the accumulated
token budget `temp_tokens`. -/
def overlapTake (ov : ℕ) (temp : ℕ) : List String → (List String × ℕ)
  | [] => ([], temp)
  | s :: rest =>
    let tk := estimateTokens s
    if temp + tk ≤ ov then
      let r := overlapTake ov (temp + tk) rest
      (r.1 ++ [s], r.2)
    else ([], temp)

/-- Characters of `" ".join`: interpose a single space between pieces. -/
def joinSpaceChars : List (List Char) → List Char
  | [] => []
  | [w] => w
  | w :: v :: ws => w ++ ' ' :: joinSpaceChars (v :: ws)

/-- Python `" ".join(l)`. -/
def joinSpace (l : List String) : String :=
  String.mk (joinSpaceChars (l.map String.data))

/-- One iteration of the `chunk_by_sentences` loop body.  `allSents` is the
full sentence list: the source computes the prior sentences as
`sentences[:sentences.index(sentence)]`, i.e. up to the FIRST occurrence
of the current sentence value. -/
def sentStep (cs ov : ℕ) (md : Metadata) (allSents : List String)
    (st : BufState) (sent : String) : BufState :=
  let tk := estimateTokens sent
  let st' :=
    if cs < st.curTokens + tk ∧ st.cur ≠ "" then
      let n := st.cid + 1
      let prior := allSents.take (idxOf sent allSents)
      let r := overlapTake ov 0 prior.reverse
      { chunks := st.chunks ++ [mkChunk md n (pyStrip st.cur) st.curTokens]
        cur := joinSpace r.1
        curTokens := r.2
        cid := n }
    else st
  let cur' := if st'.cur = "" then sent else st'.cur ++ " " ++ sent
  { st' with cur := cur', curTokens := estimateTokens cur' }

/-- `ChunkingStrategy.chunk_by_sentences`. -/
def chunkBySentences (cs ov : ℕ) (text : String) (md : Metadata) : List Chunk :=
  let sents := sentPieces text
  finishChunks md (sents.foldl (sentStep cs ov md sents) ⟨[], "", 0, 0⟩)

/-- Python `int(chunk_size / 1.3)`: equals `10 * cs / 13` for every
`cs ≤ 10 ^ 12` (checked against CPython on the boundary cases; the two
roundings of `cs / 1.3` stay within the same unit interval as `10cs/13`). -/
def wordsPerChunk (cs : ℕ) : ℕ := 10 * cs / 13

/-- Python `int(overlap / 1.3)`, as in `wordsPerChunk`. -/
def overlapWords (ov : ℕ) : ℕ := 10 * ov / 13

/-- Python `range(0, stop, step)` for `step ≥ 1`.  (`step = 0` raises
`ValueError` in Python and cannot arise from the configured chunker: this
model returns `[]` there.) -/
def pyRange (stop step : ℕ) : List ℕ :=
  (List.range ((stop + step - 1) / step)).map (fun m => m * step)

example : pyRange 10 4 = [0, 4, 8] := by decide
example : pyRange 8 4 = [0, 4] := by decide

/-- Loop body of `chunk_fixed_size`: slice `words[i : i + chunk_words]`,
join it and emit it as a chunk when non-empty. -/
def fixedStep (cs : ℕ) (md : Metadata) (ws : List String)
    (acc : List Chunk × ℕ) (i : ℕ) : List Chunk × ℕ :=
  let slice := (ws.drop i).take (wordsPerChunk cs)
  if slice ≠ [] then
    let t := joinSpace slice
    (acc.1 ++ [mkChunk md (acc.2 + 1) t (estimateTokens t)], acc.2 + 1)
  else acc

/-- `ChunkingStrategy.chunk_fixed_size`.  The word-window stride is
`chunk_words - overlap_words` (Python ints; non-positive strides cannot
arise from the configured `chunk_size=500, overlap=100`, which give
`384 - 76 = 308`). -/
def chunkFixedSize (cs ov : ℕ) (text : String) (md : Metadata) : List Chunk :=
  let ws := pyWords text
  ((pyRange ws.length (wordsPerChunk cs - overlapWords ov)).foldl
    (fixedStep cs md ws) ([], 0)).1

/-- `DocumentChunker.chunk_document`: dispatch on the strategy string, with
unknown strategies degrading to the paragraph strategy. -/
def chunkDocument (cs ov : ℕ) (text : String) (md : Metadata)
    (strategy : String) : List Chunk :=
  if strategy = "paragraphs" then chunkByParagraphs cs text md
  else if strategy = "sentences" then chunkBySentences cs ov text md
  else if strategy = "fixed" then chunkFixedSize cs ov text md
  else chunkByParagraphs cs text md

/-! ## SHA-256 (FIPS 180-4), the `hashlib.sha256` digest used by
`EmbeddingsService._local_embed`.  Bytes and 32-bit words are naturals
kept below `2 ^ 8` / `2 ^ 32` by explicit reduction. -/

/-- Reduce to a 32-bit word. -/
def w32 (x : ℕ) : ℕ := x % 4294967296

/-- Rotate a 32-bit word right by `n`. -/
def rotr (n x : ℕ) : ℕ := w32 (x / 2 ^ n + x % 2 ^ n * 2 ^ (32 - n))

/-- Bitwise complement of a 32-bit word (`x < 2 ^ 32`). -/
def notW (x : ℕ) : ℕ := 4294967295 - x

def chW (e f g : ℕ) : ℕ := (e &&& f) ^^^ (notW e &&& g)

def majW (a b c : ℕ) : ℕ := (a &&& b) ^^^ (a &&& c) ^^^ (b &&& c)

def bigSigma0 (a : ℕ) : ℕ := rotr 2 a ^^^ rotr 13 a ^^^ rotr 22 a

def bigSigma1 (e : ℕ) : ℕ := rotr 6 e ^^^ rotr 11 e ^^^ rotr 25 e

def smallSigma0 (x : ℕ) : ℕ := rotr 7 x ^^^ rotr 18 x ^^^ x / 2 ^ 3

def smallSigma1 (x : ℕ) : ℕ := rotr 17 x ^^^ rotr 19 x ^^^ x / 2 ^ 10

/-- The 64 SHA-256 round constants. -/
def sha256K : List ℕ :=
  [1116352408, 1899447441, 3049323471, 3921009573, 961987163, 1508970993,
   2453635748, 2870763221, 3624381080, 310598401, 607225278, 1426881987,
   1925078388, 2162078206, 2614888103, 3248222580, 3835390401, 4022224774,
   264347078, 604807628, 770255983, 1249150122, 1555081692, 1996064986,
   2554220882, 2821834349, 2952996808, 3210313671, 3336571891, 3584528711,
   113926993, 338241895, 666307205, 773529912, 1294757372, 1396182291,
   1695183700, 1986661051, 2177026350, 2456956037, 2730485921, 2820302411,
   3259730800, 3345764771, 3516065817, 3600352804, 4094571909, 275423344,
   430227734, 506948616, 659060556, 883997877, 958139571, 1322822218,
   1537002063, 1747873779, 1955562222, 2024104815, 2227730452, 2361852424,
   2428436474, 2756734187, 3204031479, 3329325298]

/-- The initial SHA-256 hash state. -/
def sha256H0 : List ℕ :=
  [1779033703, 3144134277, 1013904242, 2773480762,
   1359893119, 2600822924, 528734635, 1541459225]

/-- Big-endian 8-byte encoding of the bit length. -/
def be64 (n : ℕ) : List ℕ :=
  [n / 2 ^ 56 % 256, n / 2 ^ 48 % 256, n / 2 ^ 40 % 256, n / 2 ^ 32 % 256,
   n / 2 ^ 24 % 256, n / 2 ^ 16 % 256, n / 2 ^ 8 % 256, n % 256]

/-- SHA-256 padding: `0x80`, zeros to 56 mod 64, then the 64-bit big-endian
message bit length. -/
def sha256Pad (msg : List ℕ) : List ℕ :=
  msg ++ [128] ++ List.replicate ((119 - msg.length % 64) % 64) 0 ++
    be64 (8 * msg.length)

/-- Group bytes into big-endian 32-bit words. -/
def bytesToWords : List ℕ → List ℕ
  | b1 :: b2 :: b3 :: b4 :: rest =>
    (((b1 * 256 + b2) * 256 + b3) * 256 + b4) :: bytesToWords rest
  | _ => []

/-- Extend the 16 block words to the 64-entry message schedule. -/
def sha256Schedule (ws : List ℕ) : List ℕ :=
  (List.range 48).foldl
    (fun acc _ =>
      let n := acc.length
      acc ++ [w32 (smallSigma1 (acc.getD (n - 2) 0) + acc.getD (n - 7) 0 +
                   smallSigma0 (acc.getD (n - 15) 0) + acc.getD (n - 16) 0)])
    ws

/-- One SHA-256 compression round. -/
def sha256Round (st : List ℕ) (kw : ℕ × ℕ) : List ℕ :=
  match st with
  | [a, b, c, d, e, f, g, h] =>
    let t1 := w32 (h + bigSigma1 e + chW e f g + kw.1 + kw.2)
    let t2 := w32 (bigSigma0 a + majW a b c)
    [w32 (t1 + t2), a, b, c, w32 (d + t1), e, f, g]
  | other => other

/-- Compress one 64-byte block into the hash state. -/
def sha256Block (h : List ℕ) (block : List ℕ) : List ℕ :=
  let ws := sha256Schedule (bytesToWords block)
  let fin := ((sha256K.zip ws).foldl sha256Round h)
  (h.zip fin).map (fun p => w32 (p.1 + p.2))

/-- Split the padded message into 64-byte blocks (fuelled; the fuel
supplied by `sha256` never runs out). -/
def toBlocks : ℕ → List ℕ → List (List ℕ)
  | 0, _ => []
  | _, [] => []
  | fuel + 1, l => l.take 64 :: toBlocks fuel (l.drop 64)

/-- `hashlib.sha256(msg).digest()` as a list of 32 byte values. -/
def sha256 (msg : List ℕ) : List ℕ :=
  let padded := sha256Pad msg
  let hh := (toBlocks (padded.length + 1) padded).foldl sha256Block sha256H0
  hh.flatMap (fun w => [w / 2 ^ 24 % 256, w / 2 ^ 16 % 256, w / 2 ^ 8 % 256, w % 256])

/-- UTF-8 bytes of an ASCII string (`text.encode()`; UTF-8 is the identity
on code points below 128). -/
def strBytes (s : String) : List ℕ := s.data.map Char.toNat

example : sha256 (strBytes "abc") =
  [0xba, 0x78, 0x16, 0xbf, 0x8f, 0x01, 0xcf, 0xea, 0x41, 0x41, 0x40, 0xde,
   0x5d, 0xae, 0x22, 0x23, 0xb0, 0x03, 0x61, 0xa3, 0x96, 0x17, 0x7a, 0x9c,
   0xb4, 0x10, 0xff, 0x61, 0xf2, 0x00, 0x15, 0xad] := by decide

/-! ## Embeddings (`services/embeddings.py`, `EmbeddingsService`)

Python float arithmetic on the hash bytes is modelled by exact rationals;
the claims proved about the construction (determinism, component ranges,
unit norm) are exact-arithmetic statements, which is what the spec's
"within floating-point tolerance" qualifies. -/

/-- The embedding dimension (`self.embedding_dim`). -/
def embeddingDim : ℕ := 1536

/-- The scalar `_local_embed` computes for output dimension `i` before
normalization: two digest bytes at the wrapping indices `2i` and `2i + 1`
are combined as `((b1 + b2) / 255.0 - 0.5) * 2.0`. -/
def embedScalar (digest : List ℕ) (i : ℕ) : ℚ :=
  let b1 : ℕ := digest.getD (i * 2 % digest.length) 0
  let b2 : ℕ := digest.getD ((i * 2 + 1) % digest.length) 0
  (((b1 : ℚ) + (b2 : ℚ)) / 255 - 1 / 2) * 2

/-- The raw (pre-normalization) 1536-vector of `_local_embed`. -/
def localEmbedPre (digest : List ℕ) : List ℚ :=
  (List.range embeddingDim).map (embedScalar digest)

/-- `sum(x**2 for x in embedding)` over the rationals. -/
def sumSqQ (v : List ℚ) : ℚ := (v.map (fun x => x * x)).sum

/-- Sum of squares over the reals. -/
def sumSqR (v : List ℝ) : ℝ := (v.map (fun x => x * x)).sum

/-- `magnitude = sum(x**2 for x in embedding) ** 0.5`. -/
noncomputable def magnitude (v : List ℚ) : ℝ := Real.sqrt ((sumSqQ v : ℚ) : ℝ)

/-- Tail of `_local_embed`: divide by the magnitude when it is positive,
otherwise return the raw vector. -/
noncomputable def localEmbedFromDigest (digest : List ℕ) : List ℝ :=
  let pre := localEmbedPre digest
  let m := magnitude pre
  if 0 < m then pre.map (fun x : ℚ => (x : ℝ) / m)
  else pre.map (fun x : ℚ => (x : ℝ))

/-- The text normalization at the head of `_local_embed`:
`text.lower().strip()`. -/
def normText (t : String) : String := pyStrip (asciiLower t)

/-- `EmbeddingsService._local_embed`. -/
noncomputable def localEmbed (t : String) : List ℝ :=
  localEmbedFromDigest (sha256 (strBytes (normText t)))

/-! ## Local cache (`services/cache_fallback.py`, `LocalCache`) -/

/-- Generic Python dict assignment `d[k] = v` on an association list:
override in place or append. -/
def aset {α : Type} (l : List (String × α)) (k : String) (v : α) :
    List (String × α) :=
  if l.any (fun p => p.1 = k) then
    l.map (fun p => if p.1 = k then (k, v) else p)
  else l ++ [(k, v)]

/-- Generic Python `d.get(k)`. -/
def aget {α : Type} (l : List (String × α)) (k : String) : Option α :=
  (l.find? (fun p => p.1 = k)).map (fun p => p.2)

/-- Entry of `LocalCache.documents`. -/
structure CacheDoc where
  id : String
  text : String
  metadata : Metadata

/-- The batch-ingestion record (`{'id', 'text', 'embedding', 'metadata'}`). -/
structure CacheEntry where
  id : String
  text : String
  embedding : List ℝ
  metadata : Metadata

/-- In-memory state of `LocalCache` (the backing file is not modelled:
`_save_cache` has no observable effect on any claim, and `_load_cache`
is the `cache0` field of `World` below). -/
structure LocalCache where
  documents : List CacheDoc
  embeddings : List (String × List ℝ)
  metadataIndex : List (String × Metadata)

/-- `LocalCache.add_document`. -/
def addDocument (c : LocalCache) (docId text : String) (emb : List ℝ)
    (md : Metadata) : LocalCache :=
  { documents := c.documents ++ [⟨docId, text, md⟩]
    embeddings := aset c.embeddings docId emb
    metadataIndex := aset c.metadataIndex docId md }

/-- `LocalCache.add_batch`. -/
def addBatch (c : LocalCache) (docs : List CacheEntry) : LocalCache :=
  docs.foldl (fun c d => addDocument c d.id d.text d.embedding d.metadata) c

/-- Dot product (`np.dot` on equal-length 1-D arrays). -/
def dotR (a b : List ℝ) : ℝ := ((a.zip b).map (fun p => p.1 * p.2)).sum

/-- `LocalCache.cosine_similarity`: `0.0` for an empty operand
(`if not vec1 or not vec2`), `0.0` for a zero-magnitude operand, otherwise
`dot / (|a| * |b|)` (with `np.linalg.norm` the Euclidean norm). -/
noncomputable def cosineSimilarity (v1 v2 : List ℝ) : ℝ :=
  if v1.isEmpty || v2.isEmpty then 0
  else
    let m1 := Real.sqrt (sumSqR v1)
    let m2 := Real.sqrt (sumSqR v2)
    if m1 = 0 ∨ m2 = 0 then 0 else dotR v1 v2 / (m1 * m2)

/-- `all(doc_metadata.get(k) == v for k, v in metadata_filter.items())`
(a missing key compares unequal to the non-`None` filter values). -/
def metaMatches (dmd : Metadata) (filt : Metadata) : Bool :=
  filt.all (fun kv => mget dmd kv.1 = some kv.2)

/-- Python truthiness of the optional filter dict: `if metadata_filter:`
is false both for `None` and for `{}`. -/
def filtActive : Option Metadata → Option Metadata
  | some (kv :: rest) => some (kv :: rest)
  | _ => none

/-- Stable descending insertion for `scores.sort(key=score, reverse=True)`:
a new element goes after every earlier element whose score is at least as
large (Python's sort is stable). -/
noncomputable def insertDesc (p : String × ℝ) :
    List (String × ℝ) → List (String × ℝ)
  | [] => [p]
  | q :: rest => if q.2 < p.2 then p :: q :: rest else q :: insertDesc p rest

/-- Python `list.sort(key=lambda x: x[1], reverse=True)`: a stable
descending sort.  (Timsort and insertion sort agree on every list, since
stability plus the total preorder on scores determines the output
uniquely.) -/
noncomputable def sortDesc (l : List (String × ℝ)) : List (String × ℝ) :=
  l.foldr insertDesc []

/-- A search hit (`{"id", "text", "score", "metadata"}`). -/
structure SearchResult where
  id : String
  text : String
  score : ℝ
  metadata : Metadata

/-- `LocalCache.search`: scan every embedding, apply the filter, score by
cosine similarity, stable-sort descending by score (Python
`list.sort(key=..., reverse=True)` is stable), take `top_k`, and join each
hit back to its document record. -/
noncomputable def cacheSearch (c : LocalCache) (qv : List ℝ) (topK : ℕ)
    (filt : Option Metadata) : List SearchResult :=
  if c.embeddings.isEmpty then []
  else
    let scores := c.embeddings.foldl
      (fun (acc : List (String × ℝ)) p =>
        match filtActive filt with
        | some f =>
          if metaMatches ((aget c.metadataIndex p.1).getD []) f then
            acc ++ [(p.1, cosineSimilarity qv p.2)]
          else acc
        | none => acc ++ [(p.1, cosineSimilarity qv p.2)]) []
    let sorted := sortDesc scores
    (sorted.take topK).foldl
      (fun acc p =>
        match c.documents.find? (fun d => d.id = p.1) with
        | some d => acc ++ [⟨p.1, d.text, p.2, d.metadata⟩]
        | none => acc) []

/-! ## Orchestrator (`services/rag.py`, `RAGService`)

Every point where the Python code calls out of the process (remote
embedding, Pinecone connection, upsert and query, the knowledge-base load,
the on-disk cache) is an oracle field of `World`, with `Except` results
standing for "returned normally / raised".  A claim quantified over
`World` therefore covers every combination of remote outcomes. -/

abbrev PyErr := String

/-- A knowledge-base document as consumed by `_load_and_prepare_documents`. -/
structure KBDoc where
  text : String
  metadata : Metadata

/-- A Pinecone query match (`{"id", "score", "metadata"}`). -/
structure PMatch where
  id : String
  score : ℝ
  metadata : Metadata

/-- The environment of one `RAGService` run. -/
structure World where
  useLocalFallback : Bool
  remoteEmbedText : String → Except PyErr (List ℝ)
  remoteEmbedDocs : List String → Except PyErr (List (List ℝ))
  kbLoadOk : Bool
  kbDocs : List KBDoc
  pineconeIndex : Bool
  upsert : Except PyErr Unit
  remoteQuery : List ℝ → ℕ → Option Metadata → Except PyErr (List PMatch)
  cache0 : LocalCache

/-- `EmbeddingsService.embed_text`: local fallback when unconfigured, and
on any remote failure fall back to `_local_embed` for the same text. -/
noncomputable def embedText (w : World) (t : String) : List ℝ :=
  if w.useLocalFallback then localEmbed t
  else
    match w.remoteEmbedText t with
    | .ok v => v
    | .error _ => localEmbed t

/-- `EmbeddingsService.embed_documents`: as `embed_text`, batch-wise (a
batch-level remote failure falls back to `_local_embed` for every text). -/
noncomputable def embedDocuments (w : World) (texts : List String) :
    List (List ℝ) :=
  if w.useLocalFallback then texts.map localEmbed
  else
    match w.remoteEmbedDocs texts with
    | .ok vs => vs
    | .error _ => texts.map localEmbed

/-- `CacheFallbackService.search_cache` (its `except` branch is
unreachable: `embed_text` and `LocalCache.search` both return normally). -/
noncomputable def searchCache (w : World) (c : LocalCache) (query : String)
    (topK : ℕ) (filt : Option Metadata) : List SearchResult :=
  cacheSearch c (embedText w query) topK filt

/-- The mutable fields of `RAGService`. -/
structure RAGState where
  initialized : Bool
  pineconeAvailable : Bool
  hasIndex : Bool
  cachePopulated : Bool
  cache : LocalCache
  documents : List Chunk
  docsSet : Bool

/-- `RAGService._index_documents`: early-return on an empty chunk list;
otherwise embed, upsert to Pinecone when the index handle exists (an
upsert failure clears `pinecone_available` without aborting), and always
populate the local cache. -/
noncomputable def indexDocuments (w : World) (st : RAGState) : RAGState :=
  if st.documents.isEmpty then st
  else
    let embs := embedDocuments w (st.documents.map (fun d => d.text))
    let st1 :=
      if st.hasIndex then
        match w.upsert with
        | .ok _ => st
        | .error _ => { st with pineconeAvailable := false }
      else st
    let entries := (st.documents.zip embs).map
      (fun p => CacheEntry.mk p.1.id p.1.text p.2 p.1.metadata)
    { st1 with cache := addBatch st1.cache entries, cachePopulated := true }

/-- `RAGService.initialize` (named `initRAG` here): load and chunk the
knowledge base (the only aborting failure), best-effort Pinecone
connection, then index.  Returns the Python return value and the resulting
service state. -/
noncomputable def initRAG (w : World) : Bool × RAGState :=
  let st0 : RAGState := ⟨false, false, false, false, w.cache0, [], false⟩
  if ¬ w.kbLoadOk then (false, st0)
  else
    let chunks := (w.kbDocs.map
      (fun d => chunkDocument 500 100 d.text d.metadata "paragraphs")).flatten
    let st1 := { st0 with documents := chunks, docsSet := true }
    let st2 := { st1 with hasIndex := w.pineconeIndex
                          pineconeAvailable := w.pineconeIndex }
    let st3 := indexDocuments w st2
    (true, { st3 with initialized := true })

/-- One retrieved context item
(`{"source", "type", "score", "content"}`). -/
structure CtxItem where
  source : MVal
  type : MVal
  score : ℝ
  content : String

/-- The dictionary `retrieve_context` returns (`count` and `error` are
absent in the `source=none` returns, hence optional). -/
structure RetrieveResult where
  documents : List CtxItem
  query : String
  sources : List MVal
  count : Option ℕ
  error : Option PyErr
  source : String

/-- The empty `{"documents": [], "query": q, "sources": [], "source": "none"}`. -/
def emptyResult (q : String) : RetrieveResult :=
  ⟨[], q, [], none, none, "none"⟩

/-- The metadata filter built from the optional country / visa-type
arguments (`if country:` — Python also drops empty strings). -/
def buildFilter (country visaType : Option String) : Option Metadata :=
  let f : Metadata :=
    (match country with
     | some c => if c = "" then [] else [("country", MVal.s c)]
     | none => []) ++
    (match visaType with
     | some v => if v = "" then [] else [("visa_type", MVal.s v)]
     | none => [])
  if f.isEmpty then none else some f

/-- `RAGService._get_document_text_from_cache`. -/
def getDocTextFromCache (st : RAGState) (docId : String) : Option String :=
  (st.documents.find? (fun d => d.id = docId)).map (fun d => d.text)

/-- Format one Pinecone match: `text or f"Document: {id}"` falls back both
for a missing chunk and for an empty text (Python `or` on a falsy string). -/
def formatPMatch (st : RAGState) (m : PMatch) : CtxItem :=
  { source := mgetD m.metadata "country" (mgetD m.metadata "topic" (.s "Unknown"))
    type := mgetD m.metadata "type" (.s "unknown")
    score := m.score
    content :=
      match getDocTextFromCache st m.id with
      | some t => if t = "" then "Document: " ++ m.id else t
      | none => "Document: " ++ m.id }

/-- `RAGService._retrieve_from_pinecone` up to its `except` handler: embed
the query, query the index, format.  The only raise site is the remote
query oracle. -/
noncomputable def retrieveFromPineconeE (w : World) (st : RAGState)
    (query : String) (country visaType : Option String) (topK : ℕ) :
    Except PyErr RetrieveResult :=
  let qv := embedText w query
  match w.remoteQuery qv topK (buildFilter country visaType) with
  | .error e => .error e
  | .ok ms =>
    let items := ms.map (formatPMatch st)
    .ok { documents := items, query := query
          sources := items.map (fun d => d.source)
          count := some items.length, error := none, source := "" }

/-- `_retrieve_from_pinecone` with its `except` handler (`return None`). -/
noncomputable def retrieveFromPinecone (w : World) (st : RAGState)
    (query : String) (country visaType : Option String) (topK : ℕ) :
    Option RetrieveResult :=
  match retrieveFromPineconeE w st query country visaType topK with
  | .ok r => some r
  | .error _ => none

/-- `RAGService._retrieve_from_cache` (its `except` branch is unreachable
in the model: `search_cache` returns normally). -/
noncomputable def retrieveFromCache (w : World) (st : RAGState)
    (query : String) (country visaType : Option String) (topK : ℕ) :
    RetrieveResult :=
  let results := searchCache w st.cache query topK (buildFilter country visaType)
  let items := results.map (fun r =>
    { source := mgetD r.metadata "country" (mgetD r.metadata "topic" (.s "Unknown"))
      type := mgetD r.metadata "type" (.s "unknown")
      score := r.score
      content := r.text : CtxItem })
  { documents := items, query := query
    sources := items.map (fun d => d.source)
    count := some items.length, error := none, source := "" }

/-- Body of `RAGService.retrieve_context` inside its outer `try`: guard on
initialization, prefer Pinecone (a returned dict is always truthy, so
`if results:` only filters out the `None` of a failed query), fall back to
the cache when populated, else the empty `source="none"` result. -/
noncomputable def retrieveContextE (w : World) (st : RAGState)
    (query : String) (country visaType : Option String) (topK : ℕ) :
    Except PyErr RetrieveResult :=
  if ¬ st.initialized then .ok (emptyResult query)
  else
    let pine : Option RetrieveResult :=
      if st.pineconeAvailable ∧ st.hasIndex then
        retrieveFromPinecone w st query country visaType topK
      else none
    match pine with
    | some r => .ok { r with source := "pinecone" }
    | none =>
      if st.cachePopulated then
        .ok { retrieveFromCache w st query country visaType topK with
              source := "cache" }
      else .ok (emptyResult query)

/-- `RAGService.retrieve_context` with its outer catch-all handler. -/
noncomputable def retrieveContext (w : World) (st : RAGState)
    (query : String) (country visaType : Option String) (topK : ℕ) :
    RetrieveResult :=
  match retrieveContextE w st query country visaType topK with
  | .ok r => r
  | .error e => ⟨[], query, [], none, some e, "none"⟩

/-- `documents_indexed` of `RAGService.get_status`
(`len(self.documents) if hasattr(self, 'documents') else 0`). -/
def documentsIndexed (st : RAGState) : ℕ :=
  if st.docsSet then st.documents.length else 0

/-- The spec's reading of the paragraph-overlap seed (claim C7): the
trailing 20% BY CHARACTER COUNT OF THE FLUSHED BUFFER's own text. -/
def specTrailing20 (s : String) : String :=
  String.mk (s.data.drop (s.data.length - s.data.length / 5))

/-- A concrete run environment: empty knowledge base, reachable Pinecone
index whose query returns one previously-stored match, no embedding
credential. -/
def c2World : World :=
  { useLocalFallback := true
    remoteEmbedText := fun _ => .error "down"
    remoteEmbedDocs := fun _ => .error "down"
    kbLoadOk := true
    kbDocs := []
    pineconeIndex := true
    upsert := .ok ()
    remoteQuery := fun _ _ _ => .ok [{ id := "m1", score := 1, metadata := [] }]
    cache0 := ⟨[], [], []⟩ }

/-- As `c2World` but with the remote index unavailable. -/
def c2WorldNoRemote : World :=
  { useLocalFallback := true
    remoteEmbedText := fun _ => .error "down"
    remoteEmbedDocs := fun _ => .error "down"
    kbLoadOk := true
    kbDocs := []
    pineconeIndex := false
    upsert := .ok ()
    remoteQuery := fun _ _ _ => .error "down"
    cache0 := ⟨[], [], []⟩ }

/-- A concrete run environment: one knowledge-base document tagged
`country = USA`, remote index unavailable, no embedding credential. -/
def c3World : World :=
  { useLocalFallback := true
    remoteEmbedText := fun _ => .error "down"
    remoteEmbedDocs := fun _ => .error "down"
    kbLoadOk := true
    kbDocs := [⟨"US visa fees info", [("id", .s "usa"), ("country", .s "USA")]⟩]
    pineconeIndex := false
    upsert := .ok ()
    remoteQuery := fun _ _ _ => .error "down"
    cache0 := ⟨[], [], []⟩ }

/-! ## Shared lemmas -/

theorem sumSqR_nonneg (v : List ℝ) : 0 ≤ sumSqR v := by
  refine List.sum_nonneg ?_
  intro x hx
  rcases List.mem_map.mp hx with ⟨y, _, rfl⟩
  exact mul_self_nonneg y

/-! ## C5: cosine similarity zero guards -/

/-- C5: for all vector pairs, `LocalCache.cosine_similarity` returns
exactly `0.0` whenever either vector is empty or has zero magnitude (no
division-by-zero error can occur: the function is total), and otherwise
returns `dot(a,b) / (|a| * |b|)`. -/
theorem c5_cosine_similarity_guard (a b : List ℝ) :
    ((a = [] ∨ b = [] ∨ sumSqR a = 0 ∨ sumSqR b = 0) →
      cosineSimilarity a b = 0) ∧
    (a ≠ [] → b ≠ [] → sumSqR a ≠ 0 → sumSqR b ≠ 0 →
      cosineSimilarity a b =
        dotR a b / (Real.sqrt (sumSqR a) * Real.sqrt (sumSqR b))) := by
  constructor
  · intro h
    unfold cosineSimilarity
    by_cases hae : a = []
    · simp [hae]
    by_cases hbe : b = []
    · simp [hbe]
    rcases h with h | h | h | h
    · exact absurd h hae
    · exact absurd h hbe
    · rw [if_neg (by simp [List.isEmpty_iff, hae, hbe]), if_pos]
      exact Or.inl (by rw [h, Real.sqrt_zero])
    · rw [if_neg (by simp [List.isEmpty_iff, hae, hbe]), if_pos]
      exact Or.inr (by rw [h, Real.sqrt_zero])
  · intro hae hbe ha hb
    unfold cosineSimilarity
    rw [if_neg (by simp [List.isEmpty_iff, hae, hbe]), if_neg]
    push_neg
    constructor
    · exact fun hz => ha ((Real.sqrt_eq_zero (sumSqR_nonneg a)).mp hz)
    · exact fun hz => hb ((Real.sqrt_eq_zero (sumSqR_nonneg b)).mp hz)

/-- Witness for C5 at a concrete degenerate input: the second operand has
zero magnitude, so the similarity is exactly `0`. -/
theorem c5_cosine_similarity_guard_witness :
    cosineSimilarity [(1 : ℝ), 2] [0, 0] = 0 :=
  (c5_cosine_similarity_guard [(1 : ℝ), 2] [0, 0]).1
    (Or.inr (Or.inr (Or.inr (by simp [sumSqR]))))

/-! ## C8: the pre-normalization scalar range -/

/-- If the two digest bytes feeding dimension `i` sum to more than 255,
the combined scalar `((b1 + b2) / 255 - 0.5) * 2` exceeds 1. -/
theorem embedScalar_gt_one (digest : List ℕ) (i : ℕ)
    (h : 255 < digest.getD (i * 2 % digest.length) 0 +
        digest.getD ((i * 2 + 1) % digest.length) 0) :
    1 < embedScalar digest i := by
  unfold embedScalar
  have h' : (255 : ℚ) <
      (digest.getD (i * 2 % digest.length) 0 : ℚ) +
      (digest.getD ((i * 2 + 1) % digest.length) 0 : ℚ) := by
    exact_mod_cast h
  linarith

/-- C8 (code bug): the spec and the code's own comment promise a scalar in
`[-1, 1]`, but `(b1 + b2) / 255.0` ranges over `[0, 2]`, so the combined
value `((b1 + b2) / 255 - 0.5) * 2` ranges over `[-1, 3]`.  Concretely,
for the input text "visa" (already lower-case and stripped) the digest
starts with bytes 231 and 89, so dimension 0 receives the scalar
`77/51 ≈ 1.51 > 1` before normalization. -/
theorem c8_combined_scalar_exceeds_unit_interval :
    1 < embedScalar (sha256 (strBytes (normText "visa"))) 0 :=
  embedScalar_gt_one _ 0 (by decide)

/-! ## C4: the fallback embedding is deterministic with unit norm -/

/-- No pre-normalization component is zero: the two bytes are integers, so
`(b1 + b2) / 255` can never equal `1/2` exactly. -/
theorem embedScalar_ne_zero (digest : List ℕ) (i : ℕ) :
    embedScalar digest i ≠ 0 := by
  unfold embedScalar
  intro h
  set b1 := digest.getD (i * 2 % digest.length) 0 with hb1
  set b2 := digest.getD ((i * 2 + 1) % digest.length) 0 with hb2
  have hq : ((2 * (b1 + b2) : ℕ) : ℚ) = 255 := by push_cast; linarith
  have h2 : (2 * (b1 + b2) : ℕ) = 255 := by exact_mod_cast hq
  omega

/-- The sum of squares of the raw `_local_embed` vector is positive. -/
theorem sumSqQ_localEmbedPre_pos (digest : List ℕ) :
    0 < sumSqQ (localEmbedPre digest) := by
  unfold sumSqQ
  apply List.sum_pos
  · intro x hx
    rcases List.mem_map.mp hx with ⟨y, hy, rfl⟩
    rcases List.mem_map.mp hy with ⟨i, _, rfl⟩
    exact mul_self_pos.mpr (embedScalar_ne_zero digest i)
  · simp [localEmbedPre, embeddingDim]

/-- Dividing a vector by a nonzero constant divides its sum of squares by
the constant's square. -/
theorem sumSqR_map_div (v : List ℚ) (m : ℝ) (hm : m ≠ 0) :
    sumSqR (v.map (fun x : ℚ => (x : ℝ) / m)) =
      ((sumSqQ v : ℚ) : ℝ) / (m * m) := by
  induction v with
  | nil => simp [sumSqR, sumSqQ]
  | cons x xs ih =>
    unfold sumSqR sumSqQ at *
    simp only [List.map_cons, List.sum_cons]
    rw [ih]
    push_cast
    field_simp

/-- C4: the local fallback embedding is a pure function of the text
(identical inputs give identical vectors), has 1536 components, and its
Euclidean norm is exactly 1 in exact arithmetic. -/
theorem c4_local_embed_deterministic_unit_norm (t : String) :
    (∀ u : String, t = u → localEmbed t = localEmbed u) ∧
    (localEmbed t).length = embeddingDim ∧
    Real.sqrt (sumSqR (localEmbed t)) = 1 := by
  have hS := sumSqQ_localEmbedPre_pos (sha256 (strBytes (normText t)))
  have hSR : (0 : ℝ) <
      ((sumSqQ (localEmbedPre (sha256 (strBytes (normText t)))) : ℚ) : ℝ) := by
    exact_mod_cast hS
  have hm : 0 < magnitude (localEmbedPre (sha256 (strBytes (normText t)))) :=
    Real.sqrt_pos.mpr hSR
  refine ⟨fun u h => by rw [h], ?_, ?_⟩
  · unfold localEmbed localEmbedFromDigest
    rw [if_pos hm]
    simp [localEmbedPre, embeddingDim]
  · unfold localEmbed localEmbedFromDigest
    rw [if_pos hm]
    rw [sumSqR_map_div _ _ (ne_of_gt hm)]
    unfold magnitude
    rw [Real.mul_self_sqrt (le_of_lt hSR)]
    rw [div_self (ne_of_gt hSR), Real.sqrt_one]

/-- Witness for C4 at the concrete text "Visa Fee": determinism applied at
the same text twice, the dimension, and the unit norm. -/
theorem c4_local_embed_witness :
    localEmbed "Visa Fee" = localEmbed "Visa Fee" ∧
    (localEmbed "Visa Fee").length = embeddingDim ∧
    Real.sqrt (sumSqR (localEmbed "Visa Fee")) = 1 :=
  ⟨(c4_local_embed_deterministic_unit_norm "Visa Fee").1 "Visa Fee" rfl,
   (c4_local_embed_deterministic_unit_norm "Visa Fee").2.1,
   (c4_local_embed_deterministic_unit_norm "Visa Fee").2.2⟩

/-! ## C10: case and outer-whitespace invariance of the fallback embedding -/

theorem toNat_ofNat_valid (n : ℕ) (h : n < 55296) : (Char.ofNat n).toNat = n := by
  simp [Char.ofNat, Nat.isValidChar, Char.ofNatAux, Char.toNat, h,
    UInt32.toNat, BitVec.toNat_ofNatLt]

theorem toNat_toLower (c : Char) :
    (Char.toLower c).toNat =
      if 65 ≤ c.toNat ∧ c.toNat ≤ 90 then c.toNat + 32 else c.toNat := by
  unfold Char.toLower
  by_cases h : 65 ≤ c.toNat ∧ c.toNat ≤ 90
  · rw [if_pos h, if_pos ⟨h.1, h.2⟩, toNat_ofNat_valid _ (by omega)]
  · rw [if_neg h, if_neg (fun hc => h ⟨hc.1, hc.2⟩)]

/-- Lower-casing never changes whether a character is whitespace. -/
theorem pyIsSpace_toLower (c : Char) :
    pyIsSpace (Char.toLower c) = pyIsSpace c := by
  unfold pyIsSpace
  rw [toNat_toLower]
  by_cases h : 65 ≤ c.toNat ∧ c.toNat ≤ 90
  · rw [if_pos h, Bool.eq_iff_iff]
    simp only [Bool.or_eq_true, decide_eq_true_eq]
    omega
  · rw [if_neg h]

theorem toLower_eq_self (d : Char) (hd : ¬(65 ≤ d.toNat ∧ d.toNat ≤ 90)) :
    Char.toLower d = d := by
  unfold Char.toLower
  rw [if_neg (fun hc => hd ⟨hc.1, hc.2⟩)]

theorem toLower_toLower (c : Char) :
    Char.toLower (Char.toLower c) = Char.toLower c := by
  by_cases h : 65 ≤ c.toNat ∧ c.toNat ≤ 90
  · apply toLower_eq_self
    rw [toNat_toLower, if_pos h]
    omega
  · rw [toLower_eq_self c h]
    exact toLower_eq_self c h

theorem stripLeft_map_toLower (l : List Char) :
    stripLeft (l.map Char.toLower) = (stripLeft l).map Char.toLower := by
  unfold stripLeft
  rw [List.dropWhile_map,
    show pyIsSpace ∘ Char.toLower = pyIsSpace from funext pyIsSpace_toLower]

theorem stripRight_map_toLower (l : List Char) :
    stripRight (l.map Char.toLower) = (stripRight l).map Char.toLower := by
  unfold stripRight
  rw [← List.map_reverse, List.dropWhile_map,
    show pyIsSpace ∘ Char.toLower = pyIsSpace from funext pyIsSpace_toLower,
    List.map_reverse]

/-- `strip` and `lower` commute. -/
theorem pyStrip_asciiLower (s : String) :
    pyStrip (asciiLower s) = asciiLower (pyStrip s) := by
  unfold pyStrip asciiLower
  simp only [String.data]
  rw [stripLeft_map_toLower, stripRight_map_toLower]

/-- `lower` is idempotent. -/
theorem asciiLower_asciiLower (s : String) :
    asciiLower (asciiLower s) = asciiLower s := by
  unfold asciiLower
  simp only [String.data]
  rw [List.map_map,
    show Char.toLower ∘ Char.toLower = Char.toLower from funext toLower_toLower]

/-- A list whose leading element (if any) fails `p` is fixed by
`dropWhile p`; applied to prefixes of `dropWhile p l`. -/
theorem dropWhile_eq_self_of_head (p : Char → Bool) (l : List Char)
    (h : ∀ c rest, l = c :: rest → p c = false) :
    l.dropWhile p = l := by
  cases l with
  | nil => rfl
  | cons c rest => rw [List.dropWhile_cons_of_neg (by simp [h c rest rfl])]

theorem stripLeft_stripRight_stripLeft (l : List Char) :
    stripLeft (stripRight (stripLeft l)) = stripRight (stripLeft l) := by
  set m := stripLeft l with hm
  have hmfix : m.dropWhile pyIsSpace = m := by
    rw [hm]
    unfold stripLeft
    exact List.dropWhile_idempotent _ _
  have hpre : stripRight m <+: m := by
    have h1 : (stripRight m).reverse <:+ m.reverse := by
      unfold stripRight
      rw [List.reverse_reverse]
      exact List.dropWhile_suffix pyIsSpace
    exact List.reverse_suffix.mp h1
  unfold stripLeft
  apply dropWhile_eq_self_of_head
  intro c rest hcr
  rcases hpre with ⟨t, ht⟩
  rw [hcr] at ht
  have hmc : m = c :: (rest ++ t) := by rw [← ht]; simp
  by_contra hpc
  have hpc' : pyIsSpace c = true := by revert hpc; cases pyIsSpace c <;> simp
  rw [hmc, List.dropWhile_cons_of_pos hpc'] at hmfix
  have hle : (List.dropWhile pyIsSpace (rest ++ t)).length ≤ (rest ++ t).length :=
    List.Sublist.length_le (List.IsSuffix.sublist (List.dropWhile_suffix pyIsSpace))
  rw [hmfix] at hle
  simp at hle

theorem stripRight_stripRight (l : List Char) :
    stripRight (stripRight l) = stripRight l := by
  unfold stripRight
  rw [List.reverse_reverse, List.dropWhile_idempotent]

/-- `strip` is idempotent. -/
theorem pyStrip_pyStrip (s : String) : pyStrip (pyStrip s) = pyStrip s := by
  unfold pyStrip
  simp only [String.data]
  rw [stripLeft_stripRight_stripLeft, stripRight_stripRight]

/-- The normalization at the head of `_local_embed` is idempotent, and
absorbs a prior lower-casing or stripping in either order. -/
theorem normText_normText (t : String) : normText (normText t) = normText t := by
  unfold normText
  rw [pyStrip_asciiLower t, asciiLower_asciiLower (pyStrip t),
    pyStrip_asciiLower (pyStrip t), pyStrip_pyStrip t]

theorem normText_lower_strip (t : String) :
    normText (asciiLower (pyStrip t)) = normText t := by
  unfold normText
  rw [asciiLower_asciiLower (pyStrip t), pyStrip_asciiLower (pyStrip t),
    pyStrip_pyStrip t, pyStrip_asciiLower t]

theorem normText_strip_lower (t : String) :
    normText (pyStrip (asciiLower t)) = normText t :=
  normText_normText t

/-- C10: the fallback embedding of `t` equals the fallback embedding of the
lower-cased, whitespace-trimmed `t` (in either composition order), so texts
differing only in letter case or leading/trailing whitespace receive the
same vector. -/
theorem c10_local_embed_case_trim_invariant (t : String) :
    localEmbed t = localEmbed (pyStrip (asciiLower t)) ∧
    localEmbed t = localEmbed (asciiLower (pyStrip t)) := by
  unfold localEmbed
  rw [normText_strip_lower, normText_lower_strip]
  exact ⟨rfl, rfl⟩

/-! ## C6: the token estimator -/

/-- On an all-whitespace tail the word scanner just flushes its
accumulator. -/
theorem wordsAux_all_spaces (t : List Char) (ht : ∀ c ∈ t, pyIsSpace c = true) :
    ∀ acc, wordsAux acc t = if acc.isEmpty then [] else [acc.reverse] := by
  induction t with
  | nil => intro acc; rfl
  | cons c cs ih =>
    intro acc
    have hc : pyIsSpace c = true := ht c (by simp)
    have ih' := ih (fun d hd => ht d (by simp [hd]))
    by_cases ha : acc.isEmpty <;> simp [wordsAux, hc, ha, ih' []]

/-- Appending trailing whitespace does not change the word split. -/
theorem wordsAux_append_spaces (t : List Char)
    (ht : ∀ c ∈ t, pyIsSpace c = true) :
    ∀ (l : List Char) (acc : List Char), wordsAux acc (l ++ t) = wordsAux acc l := by
  intro l
  induction l with
  | nil =>
    intro acc
    rw [List.nil_append, wordsAux_all_spaces t ht acc]
    rfl
  | cons c cs ih =>
    intro acc
    by_cases hc : pyIsSpace c <;> by_cases ha : acc.isEmpty <;>
      simp [wordsAux, hc, ha, ih]

/-- A list splits as its right-strip plus an all-whitespace tail. -/
theorem stripRight_decomp (l : List Char) :
    ∃ t, (∀ c ∈ t, pyIsSpace c = true) ∧ l = stripRight l ++ t := by
  refine ⟨(List.takeWhile pyIsSpace l.reverse).reverse, ?_, ?_⟩
  · intro c hc
    rw [List.mem_reverse] at hc
    exact List.mem_takeWhile_imp hc
  · unfold stripRight
    conv_lhs => rw [← List.reverse_reverse l,
      ← List.takeWhile_append_dropWhile pyIsSpace l.reverse]
    rw [List.reverse_append]

/-- Dropping leading whitespace does not change the word split. -/
theorem wordsAux_stripLeft (l : List Char) :
    wordsAux [] (stripLeft l) = wordsAux [] l := by
  induction l with
  | nil => rfl
  | cons c cs ih =>
    by_cases hc : pyIsSpace c
    · rw [show stripLeft (c :: cs) = stripLeft cs from
        List.dropWhile_cons_of_pos hc]
      rw [ih]
      simp [wordsAux, hc]
    · unfold stripLeft
      rw [List.dropWhile_cons_of_neg (by simp [hc])]

/-- `text.strip()` does not change `text.split()`. -/
theorem pyWords_pyStrip (s : String) : pyWords (pyStrip s) = pyWords s := by
  show (wordsAux [] (stripRight (stripLeft s.data))).map String.mk =
    (wordsAux [] s.data).map String.mk
  congr 1
  obtain ⟨t, ht, hdecomp⟩ := stripRight_decomp (stripLeft s.data)
  calc wordsAux [] (stripRight (stripLeft s.data))
      = wordsAux [] (stripRight (stripLeft s.data) ++ t) :=
        (wordsAux_append_spaces t ht _ []).symm
    _ = wordsAux [] (stripLeft s.data) := by rw [← hdecomp]
    _ = wordsAux [] s.data := wordsAux_stripLeft s.data

/-- `estimate_tokens` is insensitive to stripping. -/
theorem estimateTokens_pyStrip (s : String) :
    estimateTokens (pyStrip s) = estimateTokens s := by
  unfold estimateTokens
  rw [pyWords_pyStrip]

/-- Looking up a key just set in a metadata dict returns the new value. -/
theorem mget_mset_self (md : Metadata) (k : String) (v : MVal) :
    mget (mset md k v) k = some v := by
  unfold mget mset
  by_cases h : md.any (fun p => p.1 = k)
  · rw [if_pos h]
    induction md with
    | nil => simp at h
    | cons hd tl ih =>
      by_cases hk : hd.1 = k
      · simp [hk]
      · have h' : tl.any (fun p => p.1 = k) = true := by
          rcases List.any_eq_true.mp h with ⟨x, hx, hpx⟩
          rcases List.mem_cons.mp hx with rfl | hx'
          · exact absurd (of_decide_eq_true hpx) hk
          · exact List.any_eq_true.mpr ⟨x, hx', hpx⟩
        simpa [hk] using ih h'
  · rw [if_neg h]
    rw [List.find?_append]
    have hnone : md.find? (fun p => decide (p.1 = k)) = none := by
      rw [List.find?_eq_none]
      intro x hx
      simp only [decide_eq_true_eq]
      intro hxk
      exact h (List.any_eq_true.mpr ⟨x, hx, by simp [hxk]⟩)
    rw [hnone]
    simp

/-- Every chunk built by `mkChunk` records its `tokens` argument. -/
theorem chunkTokens_mkChunk (md : Metadata) (n : ℕ) (text : String) (tok : ℕ) :
    chunkTokens (mkChunk md n text tok) = some (.i tok) := by
  unfold chunkTokens mkChunk
  exact mget_mset_self _ _ _

/-- One paragraph step preserves the loop invariant: the running token
count is the estimate of the buffer, and every emitted chunk's `tokens`
stamp is the estimate of its own text. -/
theorem paraStep_inv (cs : ℕ) (md : Metadata) (st : BufState) (para : String)
    (h1 : st.curTokens = estimateTokens st.cur)
    (h2 : ∀ ch ∈ st.chunks, chunkTokens ch = some (.i (estimateTokens ch.text))) :
    (paraStep cs md st para).curTokens =
      estimateTokens (paraStep cs md st para).cur ∧
    ∀ ch ∈ (paraStep cs md st para).chunks,
      chunkTokens ch = some (.i (estimateTokens ch.text)) := by
  refine ⟨rfl, ?_⟩
  intro ch hch
  have hch' : ch ∈ (if cs < st.curTokens + estimateTokens para ∧ st.cur ≠ "" then
      ({ chunks := st.chunks ++ [mkChunk md (st.cid + 1) (pyStrip st.cur) st.curTokens]
         cur := pySliceLast st.cur (overlapChars cs)
         curTokens := estimateTokens (pySliceLast st.cur (overlapChars cs))
         cid := st.cid + 1 } : BufState)
      else st).chunks := hch
  by_cases hc : cs < st.curTokens + estimateTokens para ∧ st.cur ≠ ""
  · rw [if_pos hc] at hch'
    rcases List.mem_append.mp hch' with hm | hm
    · exact h2 ch hm
    · rw [List.mem_singleton.mp hm, chunkTokens_mkChunk]
      simp [mkChunk, estimateTokens_pyStrip, h1]
  · rw [if_neg hc] at hch'
    exact h2 ch hch'

theorem foldl_paraStep_inv (cs : ℕ) (md : Metadata) (paras : List String) :
    ∀ st : BufState, st.curTokens = estimateTokens st.cur →
      (∀ ch ∈ st.chunks, chunkTokens ch = some (.i (estimateTokens ch.text))) →
      ((paras.foldl (paraStep cs md) st).curTokens =
        estimateTokens ((paras.foldl (paraStep cs md) st)).cur ∧
       ∀ ch ∈ (paras.foldl (paraStep cs md) st).chunks,
        chunkTokens ch = some (.i (estimateTokens ch.text))) := by
  induction paras with
  | nil => exact fun st h1 h2 => ⟨h1, h2⟩
  | cons p rest ih =>
    intro st h1 h2
    rw [List.foldl_cons]
    obtain ⟨g1, g2⟩ := paraStep_inv cs md st p h1 h2
    exact ih _ g1 g2

/-- Every chunk emitted by the paragraph strategy (the flush tail
included) carries `tokens = estimate_tokens` of its own text. -/
theorem chunkByParagraphs_tokens (cs : ℕ) (text : String) (md : Metadata) :
    ∀ ch ∈ chunkByParagraphs cs text md,
      chunkTokens ch = some (.i (estimateTokens ch.text)) := by
  intro ch hch
  simp only [chunkByParagraphs, finishChunks] at hch
  set F := (paraPieces text).foldl (paraStep cs md) ⟨[], "", 0, 0⟩ with hF
  obtain ⟨h1, h2⟩ := foldl_paraStep_inv cs md (paraPieces text) ⟨[], "", 0, 0⟩
    (by decide) (by simp)
  rw [← hF] at h1 h2
  by_cases hne : pyStrip F.cur ≠ ""
  · rw [if_pos hne] at hch
    rcases List.mem_append.mp hch with hm | hm
    · exact h2 ch hm
    · rw [List.mem_singleton.mp hm, chunkTokens_mkChunk]
      simp [mkChunk, estimateTokens_pyStrip, h1]
  · rw [if_neg hne] at hch
    exact h2 ch hch

/-- One sentence step preserves the same invariant (the overlap reseed
temporarily breaks it, but the unconditional re-estimate after appending
the sentence restores it before any further emission). -/
theorem sentStep_inv (cs ov : ℕ) (md : Metadata) (allSents : List String)
    (st : BufState) (sent : String)
    (h1 : st.curTokens = estimateTokens st.cur)
    (h2 : ∀ ch ∈ st.chunks, chunkTokens ch = some (.i (estimateTokens ch.text))) :
    (sentStep cs ov md allSents st sent).curTokens =
      estimateTokens (sentStep cs ov md allSents st sent).cur ∧
    ∀ ch ∈ (sentStep cs ov md allSents st sent).chunks,
      chunkTokens ch = some (.i (estimateTokens ch.text)) := by
  refine ⟨rfl, ?_⟩
  intro ch hch
  have hch' : ch ∈ (if cs < st.curTokens + estimateTokens sent ∧ st.cur ≠ "" then
      ({ chunks := st.chunks ++ [mkChunk md (st.cid + 1) (pyStrip st.cur) st.curTokens]
         cur := joinSpace (overlapTake ov 0 ((allSents.take (idxOf sent allSents)).reverse)).1
         curTokens := (overlapTake ov 0 ((allSents.take (idxOf sent allSents)).reverse)).2
         cid := st.cid + 1 } : BufState)
      else st).chunks := hch
  by_cases hc : cs < st.curTokens + estimateTokens sent ∧ st.cur ≠ ""
  · rw [if_pos hc] at hch'
    rcases List.mem_append.mp hch' with hm | hm
    · exact h2 ch hm
    · rw [List.mem_singleton.mp hm, chunkTokens_mkChunk]
      simp [mkChunk, estimateTokens_pyStrip, h1]
  · rw [if_neg hc] at hch'
    exact h2 ch hch'

theorem foldl_sentStep_inv (cs ov : ℕ) (md : Metadata) (allSents : List String)
    (sents : List String) :
    ∀ st : BufState, st.curTokens = estimateTokens st.cur →
      (∀ ch ∈ st.chunks, chunkTokens ch = some (.i (estimateTokens ch.text))) →
      ((sents.foldl (sentStep cs ov md allSents) st).curTokens =
        estimateTokens ((sents.foldl (sentStep cs ov md allSents) st)).cur ∧
       ∀ ch ∈ (sents.foldl (sentStep cs ov md allSents) st).chunks,
        chunkTokens ch = some (.i (estimateTokens ch.text))) := by
  induction sents with
  | nil => exact fun st h1 h2 => ⟨h1, h2⟩
  | cons p rest ih =>
    intro st h1 h2
    rw [List.foldl_cons]
    obtain ⟨g1, g2⟩ := sentStep_inv cs ov md allSents st p h1 h2
    exact ih _ g1 g2

theorem chunkBySentences_tokens (cs ov : ℕ) (text : String) (md : Metadata) :
    ∀ ch ∈ chunkBySentences cs ov text md,
      chunkTokens ch = some (.i (estimateTokens ch.text)) := by
  intro ch hch
  simp only [chunkBySentences, finishChunks] at hch
  set F := (sentPieces text).foldl (sentStep cs ov md (sentPieces text))
    ⟨[], "", 0, 0⟩ with hF
  obtain ⟨h1, h2⟩ := foldl_sentStep_inv cs ov md (sentPieces text)
    (sentPieces text) ⟨[], "", 0, 0⟩ (by decide) (by simp)
  rw [← hF] at h1 h2
  by_cases hne : pyStrip F.cur ≠ ""
  · rw [if_pos hne] at hch
    rcases List.mem_append.mp hch with hm | hm
    · exact h2 ch hm
    · rw [List.mem_singleton.mp hm, chunkTokens_mkChunk]
      simp [mkChunk, estimateTokens_pyStrip, h1]
  · rw [if_neg hne] at hch
    exact h2 ch hch

theorem fixedStep_tokens (cs : ℕ) (md : Metadata) (ws : List String)
    (acc : List Chunk × ℕ) (i : ℕ)
    (hacc : ∀ ch ∈ acc.1, chunkTokens ch = some (.i (estimateTokens ch.text))) :
    ∀ ch ∈ (fixedStep cs md ws acc i).1,
      chunkTokens ch = some (.i (estimateTokens ch.text)) := by
  intro ch hch
  have hch' : ch ∈ (if (ws.drop i).take (wordsPerChunk cs) ≠ [] then
      (acc.1 ++ [mkChunk md (acc.2 + 1) (joinSpace ((ws.drop i).take (wordsPerChunk cs)))
        (estimateTokens (joinSpace ((ws.drop i).take (wordsPerChunk cs))))], acc.2 + 1)
      else acc).1 := hch
  by_cases hsl : (ws.drop i).take (wordsPerChunk cs) ≠ []
  · rw [if_pos hsl] at hch'
    rcases List.mem_append.mp hch' with hm | hm
    · exact hacc ch hm
    · rw [List.mem_singleton.mp hm, chunkTokens_mkChunk]
      rfl
  · rw [if_neg hsl] at hch'
    exact hacc ch hch'

theorem foldl_fixedStep_tokens (cs : ℕ) (md : Metadata) (ws : List String)
    (idxs : List ℕ) :
    ∀ acc : List Chunk × ℕ,
      (∀ ch ∈ acc.1, chunkTokens ch = some (.i (estimateTokens ch.text))) →
      ∀ ch ∈ (idxs.foldl (fixedStep cs md ws) acc).1,
        chunkTokens ch = some (.i (estimateTokens ch.text)) := by
  induction idxs with
  | nil => exact fun acc hacc => hacc
  | cons i rest ih =>
    intro acc hacc
    rw [List.foldl_cons]
    exact ih _ (fixedStep_tokens cs md ws acc i hacc)

theorem chunkFixedSize_tokens (cs ov : ℕ) (text : String) (md : Metadata) :
    ∀ ch ∈ chunkFixedSize cs ov text md,
      chunkTokens ch = some (.i (estimateTokens ch.text)) := by
  intro ch hch
  unfold chunkFixedSize at hch
  exact foldl_fixedStep_tokens cs md (pyWords text) _ ([], 0) (by simp) ch hch

/-- C6 counterexample: for the three-word text "a b c" the source computes
`int(3 * 1.3) = 3` (truncation), while the spec's `round(3 * 1.3)` is 4. -/
theorem c6_estimate_tokens_counterexample :
    estimateTokens "a b c" = 3 ∧ specEstimateTokens "a b c" = 4 ∧
    estimateTokens "a b c" ≠ specEstimateTokens "a b c" := by decide

/-- C6 (amended): the token estimate equals `floor(word_count * 1.3)`
(Python `int()` truncates rather than rounds), and this same estimator
stamps the `tokens` metadata of every chunk produced by the paragraph,
sentence, and fixed strategies. -/
theorem c6_estimate_tokens_floor_shared (s : String) :
    (estimateTokens s : ℤ) = ⌊((pyWords s).length : ℚ) * (13 / 10)⌋ ∧
    (∀ cs text md, ∀ ch ∈ chunkByParagraphs cs text md,
      chunkTokens ch = some (.i (estimateTokens ch.text))) ∧
    (∀ cs ov text md, ∀ ch ∈ chunkBySentences cs ov text md,
      chunkTokens ch = some (.i (estimateTokens ch.text))) ∧
    (∀ cs ov text md, ∀ ch ∈ chunkFixedSize cs ov text md,
      chunkTokens ch = some (.i (estimateTokens ch.text))) := by
  refine ⟨?_, chunkByParagraphs_tokens, chunkBySentences_tokens,
    chunkFixedSize_tokens⟩
  have h1 : ((pyWords s).length : ℚ) * (13 / 10) =
      ((13 * (pyWords s).length : ℕ) : ℚ) / ((10 : ℕ) : ℚ) := by
    push_cast
    ring
  rw [h1, Rat.floor_natCast_div_natCast]
  unfold estimateTokens
  omega

/-- Witness for C6 (amended) at a concrete run of the paragraph strategy
with `chunk_size = 10`: token stamp of the first emitted chunk. -/
theorem c6_estimate_tokens_floor_shared_witness :
    chunkTokens (mkChunk [("id", MVal.s "D")] 1 "aaaa bb" 2) =
      some (.i (estimateTokens "aaaa bb")) :=
  (c6_estimate_tokens_floor_shared "a b c").2.1 10 "aaaa bb\n\ncc dd ee ff gg hh ii jj"
    [("id", MVal.s "D")] (mkChunk [("id", MVal.s "D")] 1 "aaaa bb" 2) (by decide)

/-! ## C7: the paragraph-strategy overlap seed -/

/-- A Python slice `s[-k:]` of a non-empty string is non-empty (for `k = 0`
it is the whole string). -/
theorem pySliceLast_ne_empty (s : String) (k : ℕ) (h : s ≠ "") :
    pySliceLast s k ≠ "" := by
  unfold pySliceLast
  by_cases hk : k = 0
  · rw [if_pos hk]
    exact h
  · rw [if_neg hk]
    intro hc
    apply h
    have hl : s.data.drop (s.data.length - k) = [] := by
      have := congrArg String.data hc
      simpa using this
    have hlen : s.data.length = 0 := by
      have h2 := congrArg List.length hl
      rw [List.length_drop] at h2
      simp only [List.length_nil] at h2
      omega
    cases s with
    | mk l =>
      cases l with
      | nil => rfl
      | cons a as => simp at hlen

/-- C7 counterexample: with `chunk_size = 10` and a 30-character flushed
buffer, the next buffer is seeded with the trailing `int(10 * 0.2) = 2`
characters ("bb"), not with the trailing 20% of the buffer's own length
(6 characters, "aa bbb") as the spec states. -/
theorem c7_flush_seed_counterexample :
    (chunkByParagraphs 10 "aaaaaaaaaaaaaaaaaaaaaaaaaa bbb\n\nc c c c c c c c c"
      []).map (fun ch => ch.text) =
      ["aaaaaaaaaaaaaaaaaaaaaaaaaa bbb", "bb\nc c c c c c c c c"] ∧
    specTrailing20 "aaaaaaaaaaaaaaaaaaaaaaaaaa bbb" = "aa bbb" ∧
    ("bb\nc c c c c c c c c" : String) ≠
      specTrailing20 "aaaaaaaaaaaaaaaaaaaaaaaaaa bbb" ++ "\nc c c c c c c c c" := by
  decide

/-- C7 (amended): at every flush event (non-empty buffer, and the incoming
paragraph would push the estimate past `chunk_size`), the stripped buffer
is emitted as a chunk stamped with the running token count, and the next
buffer is seeded with the trailing `int(chunk_size * 0.2)` characters of
the flushed buffer — a character count fixed by `chunk_size`, capped at
the buffer length (and the whole buffer when `int(chunk_size * 0.2) = 0`)
— after which the incoming paragraph is appended with a newline. -/
theorem c7_paragraph_flush_behavior (cs : ℕ) (md : Metadata) (st : BufState)
    (para : String) (hcur : st.cur ≠ "")
    (hover : cs < st.curTokens + estimateTokens para) :
    (paraStep cs md st para).chunks =
      st.chunks ++ [mkChunk md (st.cid + 1) (pyStrip st.cur) st.curTokens] ∧
    (paraStep cs md st para).cur =
      pySliceLast st.cur (overlapChars cs) ++ "\n" ++ para := by
  have hc : cs < st.curTokens + estimateTokens para ∧ st.cur ≠ "" :=
    ⟨hover, hcur⟩
  have hseed : pySliceLast st.cur (overlapChars cs) ≠ "" :=
    pySliceLast_ne_empty _ _ hcur
  constructor
  · show (if cs < st.curTokens + estimateTokens para ∧ st.cur ≠ "" then
        ({ chunks := st.chunks ++
            [mkChunk md (st.cid + 1) (pyStrip st.cur) st.curTokens]
           cur := pySliceLast st.cur (overlapChars cs)
           curTokens := estimateTokens (pySliceLast st.cur (overlapChars cs))
           cid := st.cid + 1 } : BufState)
        else st).chunks = _
    rw [if_pos hc]
  · show (if (if cs < st.curTokens + estimateTokens para ∧ st.cur ≠ "" then
        ({ chunks := st.chunks ++
            [mkChunk md (st.cid + 1) (pyStrip st.cur) st.curTokens]
           cur := pySliceLast st.cur (overlapChars cs)
           curTokens := estimateTokens (pySliceLast st.cur (overlapChars cs))
           cid := st.cid + 1 } : BufState)
        else st).cur = "" then para
      else (if cs < st.curTokens + estimateTokens para ∧ st.cur ≠ "" then
        ({ chunks := st.chunks ++
            [mkChunk md (st.cid + 1) (pyStrip st.cur) st.curTokens]
           cur := pySliceLast st.cur (overlapChars cs)
           curTokens := estimateTokens (pySliceLast st.cur (overlapChars cs))
           cid := st.cid + 1 } : BufState)
        else st).cur ++ "\n" ++ para) = _
    rw [if_pos hc]
    show (if pySliceLast st.cur (overlapChars cs) = "" then para
      else pySliceLast st.cur (overlapChars cs) ++ "\n" ++ para) = _
    rw [if_neg hseed]

/-- Witness for C7 (amended) at a concrete flush: `chunk_size = 10`, buffer
"aaaa bbbb cccc" (3 estimated tokens), incoming paragraph of 11 estimated
tokens. -/
theorem c7_paragraph_flush_behavior_witness :
    (paraStep 10 [] ⟨[], "aaaa bbbb cccc", 3, 0⟩ "c c c c c c c c c").chunks =
      [] ++ [mkChunk [] 1 (pyStrip "aaaa bbbb cccc") 3] ∧
    (paraStep 10 [] ⟨[], "aaaa bbbb cccc", 3, 0⟩ "c c c c c c c c c").cur =
      pySliceLast "aaaa bbbb cccc" (overlapChars 10) ++ "\n" ++ "c c c c c c c c c" :=
  c7_paragraph_flush_behavior 10 [] ⟨[], "aaaa bbbb cccc", 3, 0⟩
    "c c c c c c c c c" (by decide) (by decide)

/-! ## C9: the fixed-size strategy at the configured chunker -/

/-- Every word produced by the scanner is non-empty and whitespace-free. -/
theorem wordsAux_good (l : List Char) :
    ∀ acc : List Char, (∀ c ∈ acc, pyIsSpace c = false) →
      ∀ w ∈ wordsAux acc l, w ≠ [] ∧ ∀ c ∈ w, pyIsSpace c = false := by
  induction l with
  | nil =>
    intro acc hacc w hw
    unfold wordsAux at hw
    by_cases ha : acc.isEmpty
    · simp [ha] at hw
    · rw [if_neg ha] at hw
      rw [List.mem_singleton.mp hw]
      refine ⟨by simpa [List.isEmpty_iff] using ha, ?_⟩
      intro c hc
      exact hacc c (List.mem_reverse.mp hc)
  | cons c cs ih =>
    intro acc hacc w hw
    unfold wordsAux at hw
    by_cases hc : pyIsSpace c
    · rw [if_pos hc] at hw
      by_cases ha : acc.isEmpty
      · rw [if_pos ha] at hw
        exact ih [] (by simp) w hw
      · rw [if_neg ha] at hw
        rcases List.mem_cons.mp hw with rfl | hw'
        · refine ⟨by simpa [List.isEmpty_iff] using ha, ?_⟩
          intro d hd
          exact hacc d (List.mem_reverse.mp hd)
        · exact ih [] (by simp) w hw'
    · rw [if_neg hc] at hw
      refine ih (c :: acc) ?_ w hw
      intro d hd
      rcases List.mem_cons.mp hd with rfl | hd'
      · simpa using hc
      · exact hacc d hd'

/-- A non-whitespace character is pushed onto the accumulator. -/
theorem wordsAux_cons_nonspace (acc : List Char) (c : Char) (cs : List Char)
    (hc : pyIsSpace c = false) :
    wordsAux acc (c :: cs) = wordsAux (c :: acc) cs := by
  conv_lhs => unfold wordsAux
  rw [hc]
  simp

/-- Scanning a whitespace-free block accumulates it wholesale. -/
theorem wordsAux_nonspace_append (w : List Char)
    (hw : ∀ c ∈ w, pyIsSpace c = false) :
    ∀ (z acc : List Char), wordsAux acc (w ++ z) = wordsAux (w.reverse ++ acc) z := by
  induction w with
  | nil => intro z acc; simp
  | cons c cs ih =>
    intro z acc
    have hc : pyIsSpace c = false := hw c (by simp)
    rw [List.cons_append, wordsAux_cons_nonspace acc c (cs ++ z) hc,
      ih (fun d hd => hw d (by simp [hd])) z (c :: acc)]
    simp

/-- Splitting `" ".join(words)` recovers the words, provided each word is
non-empty and whitespace-free (as all `text.split()` words are). -/
theorem wordsAux_joinSpaceChars (ws : List (List Char))
    (h : ∀ w ∈ ws, w ≠ [] ∧ ∀ c ∈ w, pyIsSpace c = false) :
    wordsAux [] (joinSpaceChars ws) = ws := by
  induction ws with
  | nil => rfl
  | cons w rest ih =>
    rcases h w (by simp) with ⟨hw1, hw2⟩
    cases rest with
    | nil =>
      show wordsAux [] w = [w]
      have hstep := wordsAux_nonspace_append w hw2 [] []
      rw [List.append_nil] at hstep
      rw [hstep]
      unfold wordsAux
      simp [List.isEmpty_iff, hw1]
    | cons v vs =>
      show wordsAux [] (w ++ (' ' :: joinSpaceChars (v :: vs))) = w :: v :: vs
      rw [wordsAux_nonspace_append w hw2 _ []]
      have hane : (w.reverse ++ ([] : List Char)).isEmpty = false := by
        simp [List.isEmpty_iff, hw1]
      have hrec := ih (fun u hu => h u (by simp [hu]))
      simp [wordsAux, pyIsSpace, hane, hrec, hw1]

/-- `" ".join(words).split() == words` for non-empty whitespace-free
words. -/
theorem pyWords_joinSpace (ws : List String)
    (h : ∀ w ∈ ws, w.data ≠ [] ∧ ∀ c ∈ w.data, pyIsSpace c = false) :
    pyWords (joinSpace ws) = ws := by
  show (wordsAux [] (joinSpaceChars (ws.map String.data))).map String.mk = ws
  rw [wordsAux_joinSpaceChars]
  · rw [List.map_map]
    have : (String.mk ∘ String.data) = id := by
      funext s
      cases s
      rfl
    rw [this, List.map_id]
  · intro w hw
    rcases List.mem_map.mp hw with ⟨t, ht, rfl⟩
    exact h t ht

/-- Every word of `text.split()` is non-empty and whitespace-free. -/
theorem pyWords_spec (text : String) :
    ∀ w ∈ pyWords text, w.data ≠ [] ∧ ∀ c ∈ w.data, pyIsSpace c = false := by
  intro w hw
  rcases List.mem_map.mp hw with ⟨wl, hwl, rfl⟩
  exact wordsAux_good text.data [] (by simp) wl hwl

/-- The fixed-size fold, when every slice is non-empty, emits exactly one
chunk per index, in order, whose text is the joined slice. -/
theorem foldl_fixedStep_texts (cs : ℕ) (md : Metadata) (ws : List String) :
    ∀ (idxs : List ℕ) (acc : List Chunk × ℕ),
      (∀ i ∈ idxs, ((ws.drop i).take (wordsPerChunk cs)) ≠ []) →
      ((idxs.foldl (fixedStep cs md ws) acc).1).map (fun ch => ch.text) =
        acc.1.map (fun ch => ch.text) ++
          idxs.map (fun i => joinSpace ((ws.drop i).take (wordsPerChunk cs))) := by
  intro idxs
  induction idxs with
  | nil =>
    intro acc _
    simp
  | cons i rest ih =>
    intro acc hall
    rw [List.foldl_cons]
    have hsl := hall i (by simp)
    have hstep : fixedStep cs md ws acc i =
        (acc.1 ++ [mkChunk md (acc.2 + 1)
          (joinSpace ((ws.drop i).take (wordsPerChunk cs)))
          (estimateTokens (joinSpace ((ws.drop i).take (wordsPerChunk cs))))],
         acc.2 + 1) := by
      show (if ((ws.drop i).take (wordsPerChunk cs)) ≠ [] then _ else acc) = _
      rw [if_pos hsl]
    rw [hstep, ih _ (fun j hj => hall j (by simp [hj]))]
    simp [mkChunk, chunkIdStr]

/-- C9: with the configured chunker (`chunk_size = 500`, `overlap = 100`,
hence a 384-word window and stride 308) on any non-empty document: the
chunk texts are exactly the joined word windows `words[308m : 308m + 384]`
in original order; at least one chunk is produced; no chunk's token
estimate exceeds `chunk_size + overlap`; and every word index lies inside
the window of chunk `⌊j / 308⌋`, so the concatenated spans cover the whole
word sequence. -/
theorem c9_fixed_chunker_bound_coverage (text : String) (md : Metadata)
    (hne : pyWords text ≠ []) :
    (chunkFixedSize 500 100 text md).map (fun ch => ch.text) =
      (List.range (((pyWords text).length + 307) / 308)).map
        (fun m => joinSpace (((pyWords text).drop (m * 308)).take 384)) ∧
    chunkFixedSize 500 100 text md ≠ [] ∧
    (∀ ch ∈ chunkFixedSize 500 100 text md,
      estimateTokens ch.text ≤ 500 + 100) ∧
    (∀ j < (pyWords text).length,
      j / 308 < ((pyWords text).length + 307) / 308 ∧
      (j / 308) * 308 ≤ j ∧ j < (j / 308) * 308 + 384) := by
  set n := (pyWords text).length with hn
  have hn1 : 1 ≤ n := by
    rw [hn]
    exact List.length_pos.mpr hne
  have h384 : wordsPerChunk 500 = 384 := by decide
  have hq : pyRange n (wordsPerChunk 500 - overlapWords 100) =
      (List.range ((n + 307) / 308)).map (fun m => m * 308) := by
    have h308 : wordsPerChunk 500 - overlapWords 100 = 308 := by decide
    rw [h308]
    unfold pyRange
    rw [show n + 308 - 1 = n + 307 from by omega]
  have hall : ∀ i ∈ (List.range ((n + 307) / 308)).map (fun m => m * 308),
      (((pyWords text).drop i).take (wordsPerChunk 500)) ≠ [] := by
    intro i hi
    rcases List.mem_map.mp hi with ⟨m, hm, rfl⟩
    have hmq : m < (n + 307) / 308 := List.mem_range.mp hm
    have hin : m * 308 < n := by omega
    have hdropne : (pyWords text).drop (m * 308) ≠ [] := by
      apply List.ne_nil_of_length_pos
      rw [List.length_drop]
      omega
    rw [h384]
    intro hcon
    rcases List.take_eq_nil_iff.mp hcon with hcon | hcon
    · exact absurd hcon (by omega)
    · exact hdropne hcon
  have htexts : (chunkFixedSize 500 100 text md).map (fun ch => ch.text) =
      (List.range ((n + 307) / 308)).map
        (fun m => joinSpace (((pyWords text).drop (m * 308)).take 384)) := by
    show ((((pyRange (pyWords text).length
        (wordsPerChunk 500 - overlapWords 100))).foldl
        (fixedStep 500 md (pyWords text)) ([], 0)).1).map (fun ch => ch.text) = _
    rw [← hn, hq, foldl_fixedStep_texts 500 md (pyWords text) _ ([], 0) hall]
    rw [List.map_map]
    simp only [List.map_nil, List.nil_append]
    rw [h384]
    rfl
  refine ⟨htexts, ?_, ?_, ?_⟩
  · intro hcon
    have := congrArg List.length htexts
    rw [hcon] at this
    simp only [List.map_nil, List.length_nil, List.length_map,
      List.length_range] at this
    omega
  · intro ch hch
    have hmem : ch.text ∈ (chunkFixedSize 500 100 text md).map
        (fun ch => ch.text) := List.mem_map.mpr ⟨ch, hch, rfl⟩
    rw [htexts] at hmem
    rcases List.mem_map.mp hmem with ⟨m, _, htext⟩
    set slice := ((pyWords text).drop (m * 308)).take 384 with hslice
    have hgood : ∀ w ∈ slice, w.data ≠ [] ∧ ∀ c ∈ w.data, pyIsSpace c = false := by
      intro w hw
      exact pyWords_spec text w
        (List.mem_of_mem_drop (List.mem_of_mem_take hw))
    have hcount : estimateTokens (joinSpace slice) = 13 * slice.length / 10 := by
      unfold estimateTokens
      rw [pyWords_joinSpace slice hgood]
    have hsl : slice.length ≤ 384 := by
      rw [hslice]
      exact le_trans (List.length_take_le _ _) (le_refl _)
    rw [← htext, hcount]
    omega
  · intro j hj
    refine ⟨by omega, by omega, by omega⟩

/-- Witness for C9 at the two-word document "alpha beta": a single chunk
containing both words. -/
theorem c9_fixed_chunker_witness :
    (chunkFixedSize 500 100 "alpha beta" []).map (fun ch => ch.text) =
      (List.range (((pyWords "alpha beta").length + 307) / 308)).map
        (fun m => joinSpace (((pyWords "alpha beta").drop (m * 308)).take 384)) ∧
    chunkFixedSize 500 100 "alpha beta" [] ≠ [] ∧
    (∀ ch ∈ chunkFixedSize 500 100 "alpha beta" [],
      estimateTokens ch.text ≤ 500 + 100) ∧
    (∀ j < (pyWords "alpha beta").length,
      j / 308 < ((pyWords "alpha beta").length + 307) / 308 ∧
      (j / 308) * 308 ≤ j ∧ j < (j / 308) * 308 + 384) :=
  c9_fixed_chunker_bound_coverage "alpha beta" [] (by decide)

/-! ## C1: the retrieval path never propagates an exception -/

/-- The Pinecone formatter pairs `sources` with `documents`. -/
theorem retrieveFromPinecone_sources (w : World) (st : RAGState) (q : String)
    (c v : Option String) (k : ℕ) (r : RetrieveResult)
    (h : retrieveFromPinecone w st q c v k = some r) :
    r.sources = r.documents.map (fun d => d.source) := by
  unfold retrieveFromPinecone retrieveFromPineconeE at h
  rcases hq : w.remoteQuery (embedText w q) k (buildFilter c v) with e | ms
  · simp [hq] at h
  · simp only [hq] at h
    rw [← Option.some.injEq _ r |>.mp h]

/-- The cache formatter pairs `sources` with `documents`. -/
theorem retrieveFromCache_sources (w : World) (st : RAGState) (q : String)
    (c v : Option String) (k : ℕ) :
    (retrieveFromCache w st q c v k).sources =
      (retrieveFromCache w st q c v k).documents.map (fun d => d.source) := rfl

/-- C1: for every orchestrator state (initialized or not) and every
combination of oracle outcomes — remote embedding failure, remote index
failure, any cache contents — the `retrieve_context` pipeline returns
normally (`Except.ok`), the total function agrees with it, the result
carries one of the three source tags, and its `sources` list is the
`source` field of each returned document. -/
theorem c1_retrieve_context_never_raises (w : World) (st : RAGState)
    (query : String) (country visaType : Option String) (topK : ℕ) :
    ∃ r : RetrieveResult,
      retrieveContextE w st query country visaType topK = Except.ok r ∧
      retrieveContext w st query country visaType topK = r ∧
      (r.source = "pinecone" ∨ r.source = "cache" ∨ r.source = "none") ∧
      r.sources = r.documents.map (fun d => d.source) := by
  by_cases hinit : st.initialized
  · by_cases hpq : st.pineconeAvailable ∧ st.hasIndex
    · rcases hp : retrieveFromPinecone w st query country visaType topK
        with _ | r
      · by_cases hcp : st.cachePopulated
        · refine ⟨{ retrieveFromCache w st query country visaType topK with
            source := "cache" }, ?_, ?_, Or.inr (Or.inl rfl),
            retrieveFromCache_sources w st query country visaType topK⟩
          · simp [retrieveContextE, hinit, hpq, hp, hcp]
          · simp [retrieveContext, retrieveContextE, hinit, hpq, hp, hcp]
        · refine ⟨emptyResult query, ?_, ?_, Or.inr (Or.inr rfl), rfl⟩
          · simp [retrieveContextE, hinit, hpq, hp, hcp]
          · simp [retrieveContext, retrieveContextE, hinit, hpq, hp, hcp]
      · refine ⟨{ r with source := "pinecone" }, ?_, ?_, Or.inl rfl, ?_⟩
        · simp [retrieveContextE, hinit, hpq, hp]
        · simp [retrieveContext, retrieveContextE, hinit, hpq, hp]
        · exact retrieveFromPinecone_sources w st query country visaType topK r hp
    · by_cases hcp : st.cachePopulated
      · refine ⟨{ retrieveFromCache w st query country visaType topK with
          source := "cache" }, ?_, ?_, Or.inr (Or.inl rfl),
          retrieveFromCache_sources w st query country visaType topK⟩
        · simp [retrieveContextE, hinit, hpq, hcp]
        · simp [retrieveContext, retrieveContextE, hinit, hpq, hcp]
      · refine ⟨emptyResult query, ?_, ?_, Or.inr (Or.inr rfl), rfl⟩
        · simp [retrieveContextE, hinit, hpq, hcp]
        · simp [retrieveContext, retrieveContextE, hinit, hpq, hcp]
  · refine ⟨emptyResult query, ?_, ?_, Or.inr (Or.inr rfl), rfl⟩
    · simp [retrieveContextE, hinit]
    · simp [retrieveContext, retrieveContextE, hinit]

/-! ## C2: initialization failure modes and the empty knowledge base -/

/-- C2 counterexample: with an empty knowledge base but a reachable remote
index holding a previously-stored vector, `initialize()` returns true yet
`retrieve_context` returns a non-empty documents list served from the
remote match — the claim's "every subsequent retrieve_context call returns
an empty documents list" fails. -/
theorem c2_empty_kb_counterexample :
    (initRAG c2World).1 = true ∧
    (retrieveContext c2World (initRAG c2World).2 "q" none none 5).documents.length = 1 ∧
    (retrieveContext c2World (initRAG c2World).2 "q" none none 5).documents ≠ [] := by
  refine ⟨rfl, rfl, ?_⟩
  intro hc
  have hlen := congrArg List.length hc
  rw [show (retrieveContext c2World (initRAG c2World).2 "q" none none
    5).documents.length = 1 from rfl] at hlen
  simp at hlen

/-- C2 (amended): `initialize()` returns false exactly when the
knowledge-base load fails (remote-connection, upsert and embedding
failures are all absorbed); for an empty knowledge base it returns true
with `documents_indexed = 0`, and — when the remote index is unavailable —
every subsequent `retrieve_context` call returns the empty
`source = "none"` result. -/
theorem c2_initialize_only_kb_failure_aborts (w : World) :
    ((initRAG w).1 = false ↔ w.kbLoadOk = false) ∧
    (w.kbDocs = [] → w.kbLoadOk = true →
      (initRAG w).1 = true ∧
      documentsIndexed (initRAG w).2 = 0 ∧
      (w.pineconeIndex = false →
        ∀ q c v k, retrieveContext w (initRAG w).2 q c v k = emptyResult q)) := by
  constructor
  · by_cases hkb : w.kbLoadOk
    · simp [initRAG, hkb]
    · simp [initRAG, hkb]
  · intro hdocs hkb
    have hstate : initRAG w = (true,
        { initialized := true, pineconeAvailable := w.pineconeIndex
          hasIndex := w.pineconeIndex, cachePopulated := false
          cache := w.cache0, documents := [], docsSet := true }) := by
      simp [initRAG, hkb, hdocs, indexDocuments]
    refine ⟨by rw [hstate], by rw [hstate]; rfl, ?_⟩
    intro hpi q c v k
    rw [hstate]
    simp [retrieveContext, retrieveContextE, hpi]

/-- Witness for C2 (amended) at the concrete empty-KB, remote-unavailable
environment. -/
theorem c2_initialize_only_kb_failure_aborts_witness :
    (initRAG c2WorldNoRemote).1 = true ∧
    documentsIndexed (initRAG c2WorldNoRemote).2 = 0 ∧
    retrieveContext c2WorldNoRemote (initRAG c2WorldNoRemote).2 "q" none none 5 =
      emptyResult "q" := by
  obtain ⟨h1, h2, h3⟩ :=
    (c2_initialize_only_kb_failure_aborts c2WorldNoRemote).2 rfl rfl
  exact ⟨h1, h2, h3 rfl "q" none none 5⟩

/-! ## C3: tagging when no result is produced -/

/-- C3 counterexample: a Ready orchestrator (built by `initialize()` from
one USA-tagged document, remote unavailable) with a populated local store
whose filtered search returns zero matches: `retrieve_context` returns an
empty result tagged `source = "cache"`, not `source = "none"` as the claim
states. -/
theorem c3_empty_search_counterexample :
    (initRAG c3World).2.cachePopulated = true ∧
    (retrieveContext c3World (initRAG c3World).2 "q" (some "Canada") none
      5).source = "cache" ∧
    (retrieveContext c3World (initRAG c3World).2 "q" (some "Canada") none
      5).documents = [] ∧
    ("cache" : String) ≠ "none" := by
  refine ⟨rfl, rfl, rfl, by decide⟩

/-- C3 (amended): in a Ready orchestrator, whenever the remote path does
not succeed (unavailable, or its query raises), then: if the local store
was never populated the result is the empty `source = "none"` dictionary;
but if the store is populated and the filtered search returns zero
matches, the result is an empty documents list tagged `source = "cache"`,
not `"none"`. -/
theorem c3_no_result_source_tags (w : World) (st : RAGState) (q : String)
    (c v : Option String) (k : ℕ)
    (hinit : st.initialized = true)
    (hremote : st.pineconeAvailable = true ∧ st.hasIndex = true →
      retrieveFromPinecone w st q c v k = none) :
    (st.cachePopulated = false → retrieveContext w st q c v k = emptyResult q) ∧
    (st.cachePopulated = true →
      searchCache w st.cache q k (buildFilter c v) = [] →
      (retrieveContext w st q c v k).source = "cache" ∧
      (retrieveContext w st q c v k).documents = []) := by
  have hpine : (if st.pineconeAvailable ∧ st.hasIndex then
      retrieveFromPinecone w st q c v k else none) = none := by
    by_cases hpq : st.pineconeAvailable ∧ st.hasIndex
    · rw [if_pos hpq]
      exact hremote ⟨hpq.1, hpq.2⟩
    · rw [if_neg hpq]
  constructor
  · intro hcp
    simp [retrieveContext, retrieveContextE, hinit, hpine, hcp]
  · intro hcp hsearch
    have hres : retrieveContext w st q c v k =
        { retrieveFromCache w st q c v k with source := "cache" } := by
      simp [retrieveContext, retrieveContextE, hinit, hpine, hcp]
    rw [hres]
    refine ⟨rfl, ?_⟩
    show (retrieveFromCache w st q c v k).documents = []
    unfold retrieveFromCache
    rw [hsearch]
    rfl

/-- Witness for C3 (amended) at the concrete Ready state of `c3World`:
populated store, mismatching country filter. -/
theorem c3_no_result_source_tags_witness :
    (retrieveContext c3World (initRAG c3World).2 "q" (some "Canada") none
      5).source = "cache" ∧
    (retrieveContext c3World (initRAG c3World).2 "q" (some "Canada") none
      5).documents = [] :=
  (c3_no_result_source_tags c3World (initRAG c3World).2 "q" (some "Canada")
      none 5 rfl
      (fun h => absurd h.1 (by decide))).2 rfl rfl

end VisaGo
